import Mathlib

/-!
Verification of the PDF table-extraction pipeline: a shallow embedding of
`table_parser.py` and of the `AdvancedPDFProcessor` class in `something.py`.

Modelling conventions:
* Python floats are modelled as rationals (`ℚ`); the decimal tokens the
  pipeline handles (at most a few fractional digits) behave identically.
* Python strings are modelled as `List Char` (converted from Lean string
  literals via `.data`).
* The two regular expressions of `table_parser.py` are embedded as explicit
  matchers with Python `re` semantics: leftmost match, greedy and lazy
  quantifiers exactly as written in the pattern.
-/

namespace PdfPipeline

/-- The ASCII whitespace characters recognised by Python's `str.strip`
and by `\s` (the pipeline's inputs are ASCII). -/
def isPyWs (c : Char) : Bool :=
  c = ' ' || c = '\t' || c = '\n' || c = '\r' || c = '\x0b' || c = '\x0c'

/-- Python `str.strip()` on a character list. -/
def pyStrip (cs : List Char) : List Char :=
  ((cs.dropWhile isPyWs).reverse.dropWhile isPyWs).reverse

/-- Python `str.lower()` (ASCII). -/
def pyLower (cs : List Char) : List Char := cs.map Char.toLower

/-- Python substring test `needle in hay`. -/
def containsSub (needle : List Char) : List Char → Bool
  | [] => needle.isEmpty
  | c :: t => needle.isPrefixOf (c :: t) || containsSub needle t

/-- Decimal value of a digit run. -/
def digitsToNat (ds : List Char) : Nat :=
  ds.foldl (fun n c => 10 * n + (c.toNat - '0'.toNat)) 0

/-- Greedy parse of the number atom of `row_pattern` in `parse_table_block`
(`[0-9]*\.\d+`): a maximal digit run, a dot, then a nonempty maximal digit
run.  Returns the matched token and the remaining input.  Greediness is
exact: backtracking inside the atom can never help, because every character
it would give back is a digit while the continuation always needs a
non-digit. -/
def parseFloatTok (cs : List Char) : Option (List Char × List Char) :=
  let ds := cs.takeWhile Char.isDigit
  match cs.dropWhile Char.isDigit with
  | '.' :: r =>
      let ds2 := r.takeWhile Char.isDigit
      if ds2 = [] then none
      else some (ds ++ '.' :: ds2, r.dropWhile Char.isDigit)
  | _ => none

/-- `\s+` when the following atom cannot start with whitespace: at least one
whitespace character, consuming the maximal run. -/
def skipWs1 : List Char → Option (List Char)
  | [] => none
  | c :: r => if isPyWs c then some (r.dropWhile isPyWs) else none

/-- The suffix of `row_pattern` after group 1:
`\s+([0-9]*\.\d+)\s+([0-9]*\.\d+)\s+([0-9]*\.\d+)`.
Returns the three captured number tokens on success.  Nothing follows the
third number in the pattern, so the match succeeds as soon as it parses. -/
def tailMatch (cs : List Char) : Option (List Char × List Char × List Char) :=
  match skipWs1 cs with
  | none => none
  | some r1 =>
    match parseFloatTok r1 with
    | none => none
    | some (t1, r2) =>
      match skipWs1 r2 with
      | none => none
      | some r3 =>
        match parseFloatTok r3 with
        | none => none
        | some (t2, r4) =>
          match skipWs1 r4 with
          | none => none
          | some r5 =>
            match parseFloatTok r5 with
            | none => none
            | some (t3, _) => some (t1, t2, t3)

/-- The lazy group `(.+?)` of `row_pattern`, grown one character at a time
from a fixed start position; `acc` holds the group's characters reversed.
The first end position whose continuation matches wins, which is exactly
Python's lazy-quantifier order. -/
def rowMatchAux (acc : List Char) :
    List Char → Option (List Char × List Char × List Char × List Char)
  | [] =>
    match tailMatch [] with
    | some (t1, t2, t3) => some (acc.reverse, t1, t2, t3)
    | none => none
  | c :: r =>
    match tailMatch (c :: r) with
    | some (t1, t2, t3) => some (acc.reverse, t1, t2, t3)
    | none => rowMatchAux (c :: acc) r

/-- One attempt of `row_pattern` with group 1 starting at the given
position: the group must take at least one character. -/
def groupSearch (cs : List Char) :
    Option (List Char × List Char × List Char × List Char) :=
  match cs with
  | [] => none
  | c :: r => rowMatchAux [c] r

/-- Backtracking of the leading greedy `\s*` of `row_pattern`: group 1 is
first tried after the maximal whitespace prefix (start position `k`), then
at ever earlier positions. -/
def rowMatchFrom (cs : List Char) :
    Nat → Option (List Char × List Char × List Char × List Char)
  | 0 => groupSearch cs
  | k + 1 =>
    match groupSearch (cs.drop (k + 1)) with
    | some res => some res
    | none => rowMatchFrom cs k

/-- `row_pattern.search(line)` of `parse_table_block`:
`^\s*(.+?)\s+([0-9]*\.\d+)\s+([0-9]*\.\d+)\s+([0-9]*\.\d+)`.
The `^` anchors the attempt at the start of the line (no MULTILINE flag),
so the whole search is the `\s*` backtracking loop.  Returns the captures
`(group 1, number, number, number)`. -/
def rowMatch (cs : List Char) :
    Option (List Char × List Char × List Char × List Char) :=
  rowMatchFrom cs (cs.takeWhile isPyWs).length

/-- Python `float()` applied to a token matched by `[0-9]*\.\d+`. -/
def floatOfTok (t : List Char) : ℚ :=
  let ds := t.takeWhile Char.isDigit
  match t.dropWhile Char.isDigit with
  | '.' :: r =>
      let ds2 := r.takeWhile Char.isDigit
      (digitsToNat ds : ℚ) + (digitsToNat ds2 : ℚ) / (10 : ℚ) ^ ds2.length
  | _ => (digitsToNat ds : ℚ)

/-- A row produced by `parse_table_block`: the dict
`{"Model": ..., "Precision": v1, "Recall": v2, "F1": v3}`. -/
structure ParsedRow where
  Model : List Char
  Precision : ℚ
  Recall : ℚ
  F1 : ℚ
deriving DecidableEq, Repr

/-- The result dict `{"base": base_rows, "tuned": tuned_rows}`. -/
structure TableData where
  base : List ParsedRow
  tuned : List ParsedRow
deriving DecidableEq, Repr

/-- Which list the mutable `current_list` variable points to. -/
inductive Ctx
  | base
  | tuned
deriving DecidableEq, Repr

/-- One iteration of the line loop of `parse_table_block`. -/
def parseLineStep (st : List ParsedRow × List ParsedRow × Ctx) (rawLine : List Char) :
    List ParsedRow × List ParsedRow × Ctx :=
  let (bs, ts, cur) := st
  let line := pyStrip rawLine
  if line = [] then st
  else
    match rowMatch line with
    | some (g1, t1, t2, t3) =>
      let row : ParsedRow :=
        ⟨pyStrip g1, floatOfTok t1, floatOfTok t2, floatOfTok t3⟩
      match cur with
      | .base => (bs ++ [row], ts, cur)
      | .tuned => (bs, ts ++ [row], cur)
    | none =>
      let lower := pyLower line
      if containsSub "optimal".data lower || containsSub "tuned".data lower then
        (bs, ts, .tuned)
      else if containsSub "base".data lower then
        (bs, ts, .base)
      else st

/-- `parse_table_block(text)` of `table_parser.py`: strip the block, split
it into lines, and run the base/tuned state machine over the lines,
starting in the BASE context. -/
def parse_table_block (text : List Char) : TableData :=
  let lines := (pyStrip text).splitOn '\n'
  let res := lines.foldl parseLineStep ([], [], Ctx.base)
  ⟨res.1, res.2.1⟩

/-- Decimal digit string of a natural number, most significant digit
first, with explicit fuel to keep the recursion structural (`n + 1` fuel
always suffices, since the argument shrinks by a factor of 10). -/
def natDigitsAux : Nat → Nat → List Char
  | 0, _ => []
  | fuel + 1, n =>
    if n < 10 then [Nat.digitChar n]
    else natDigitsAux fuel (n / 10) ++ [Nat.digitChar (n % 10)]

/-- Decimal digit string of a natural number (the digits of Python's
`str`/`format` output). -/
def natDigits (n : Nat) : List Char := natDigitsAux (n + 1) n

/-- Round half to even, the rounding of Python's `format` on floats (the
idealisation over ℚ of rounding the binary double). -/
def rhe (q : ℚ) : ℤ :=
  if q - ⌊q⌋ < 1 / 2 then ⌊q⌋
  else if 1 / 2 < q - ⌊q⌋ then ⌊q⌋ + 1
  else if ⌊q⌋ % 2 = 0 then ⌊q⌋ else ⌊q⌋ + 1

/-- The fractional digits of `"{:.4f}"`: four digits, zero padded. -/
def pad4 (m : Nat) : List Char :=
  List.replicate (4 - (natDigits m).length) '0' ++ natDigits m

/-- `"{:.4f}".format(v)` for a float `v`, modelled over ℚ: round `v·10⁴`
half-to-even and print `⟨sign⟩⟨integer digits⟩.⟨4 digits⟩`.  (The sign of a
negative zero is not modelled; no claim depends on it.) -/
def formatQ (q : ℚ) : List Char :=
  if rhe (q * 10000) < 0 then
    '-' :: (natDigits ((rhe (q * 10000)).natAbs / 10000) ++
      '.' :: pad4 ((rhe (q * 10000)).natAbs % 10000))
  else
    natDigits ((rhe (q * 10000)).toNat / 10000) ++
      '.' :: pad4 ((rhe (q * 10000)).toNat % 10000)

/-- The body of `format_value` after a successful `float(val)`: format to
4 decimal places, then prepend `"0"` if the result starts with `"."`. -/
def fmtFloat (q : ℚ) : List Char :=
  match formatQ q with
  | '.' :: tail => '0' :: '.' :: tail
  | f => f

/-- An argument of `format_value`: either a Python float or a string. -/
inductive PyVal
  | num (q : ℚ)
  | str (s : List Char)
deriving DecidableEq, Repr

/-- Mantissa part of Python's `float(string)` grammar:
`[sign] (digits [. digits*] | . digits+)`; returns value and rest. -/
def pyFloatCore (cs : List Char) : Option (ℚ × List Char) :=
  let sgn : ℚ × List Char :=
    match cs with
    | '-' :: r => (-1, r)
    | '+' :: r => (1, r)
    | _ => (1, cs)
  let ds := sgn.2.takeWhile Char.isDigit
  match sgn.2.dropWhile Char.isDigit with
  | '.' :: r =>
      let ds2 := r.takeWhile Char.isDigit
      if ds = [] && ds2 = [] then none
      else
        some (sgn.1 * ((digitsToNat ds : ℚ) + (digitsToNat ds2 : ℚ) / (10 : ℚ) ^ ds2.length),
          r.dropWhile Char.isDigit)
  | rest => if ds = [] then none else some (sgn.1 * (digitsToNat ds : ℚ), rest)

/-- Python `float(string)`, modelled for the finite decimal grammar
`ws [sign] (digits [. digits*] | . digits+) [(e|E) [sign] digits+] ws`
(the special `inf`/`nan` spellings are outside the model; the claims only
use the failure case and concrete inputs). -/
def pyFloat? (s : List Char) : Option ℚ :=
  match pyFloatCore (pyStrip s) with
  | none => none
  | some (m, rest) =>
    match rest with
    | [] => some m
    | e :: r =>
      if e = 'e' || e = 'E' then
        let sgn : ℤ × List Char :=
          match r with
          | '-' :: r2 => (-1, r2)
          | '+' :: r2 => (1, r2)
          | _ => (1, r)
        let ds := sgn.2.takeWhile Char.isDigit
        if ds = [] || sgn.2.dropWhile Char.isDigit ≠ [] then none
        else some (m * (10 : ℚ) ^ (sgn.1 * (digitsToNat ds : ℤ)))
      else none

/-- `format_value(val)` of `table_parser.py`: format a float (or a string
that parses as one) to 4 decimal places with a leading zero; return other
strings unchanged (`except ValueError`). -/
def format_value : PyVal → List Char
  | .num q => fmtFloat q
  | .str s =>
    match pyFloat? s with
    | some q => fmtFloat q
    | none => s

/-- The f-string of the data-row loop of `generate_markdown_table`:
`f"| {model} | {f1} | {precision} | {recall} |"` (note the column order:
F1 first, although the parser stores it last). -/
def renderDataRow (r : ParsedRow) : List Char :=
  "| ".data ++ r.Model ++ " | ".data ++ fmtFloat r.F1 ++ " | ".data ++
    fmtFloat r.Precision ++ " | ".data ++ fmtFloat r.Recall ++ " |".data

/-- The context line of `generate_markdown_table`. -/
def contextLabel (is_tuned : Bool) : List Char :=
  if is_tuned then "**Context: Tuned / Optimized Performance**".data
  else "**Context: Base Performance**".data

/-- Python `"\n".join(...)`. -/
def joinNl : List (List Char) → List Char
  | [] => []
  | [l] => l
  | l :: l2 :: ls => l ++ '\n' :: joinNl (l2 :: ls)

/-- `generate_markdown_table(rows, is_tuned)` of `table_parser.py`:
context line, blank line, header, alignment row, then one data row per
parsed row, joined with newlines. -/
def generate_markdown_table (rows : List ParsedRow) (is_tuned : Bool) : List Char :=
  joinNl
    (contextLabel is_tuned :: [] :: "| Model | F1 Score | Precision | Recall |".data ::
      "| :--- | ---: | ---: | ---: |".data :: rows.map renderDataRow)

/-- A bounding box `(x0, y0, x1, y1)` as used by fitz and pdfplumber:
`y0` is the top edge, `y1` the bottom edge. -/
structure Rect4 where
  x0 : ℚ
  y0 : ℚ
  x1 : ℚ
  y1 : ℚ
deriving DecidableEq, Repr

/-- The body of the loop of `is_covered_by_pdfplumber`: the table starts
within 100 points strictly below the caption's bottom edge and the
caption's horizontal midpoint lies strictly inside the table's span. -/
def tableSat (capBBox : Rect4) (t : Rect4) : Bool :=
  let mid := (capBBox.x0 + capBBox.x1) / 2
  (0 < t.y0 - capBBox.y1 && t.y0 - capBBox.y1 < 100) && (t.x0 < mid && mid < t.x1)

/-- `is_covered_by_pdfplumber(page_num, caption_bbox)` of `something.py`,
with the page's detected tables (pdfplumber `page.find_tables()` bboxes,
in detector order) passed in place of the pdfplumber call: return the
first table satisfying `tableSat`, else `none`. -/
def is_covered_by_pdfplumber (tables : List Rect4) (capBBox : Rect4) : Option Rect4 :=
  tables.find? (tableSat capBBox)

/-- Column classification of `extract_table_image_ocr`: the crop interval
`(x0, x1)` chosen from the caption midpoint and the page width. -/
def inferXCrop (capBBox : Rect4) (W : ℚ) : ℚ × ℚ :=
  let mid := (capBBox.x0 + capBBox.x1) / 2
  if mid < W * (0.45 : ℚ) then (0, W * (0.55 : ℚ))
  else if mid > W * (0.55 : ℚ) then (W * (0.45 : ℚ), W)
  else (0, W)

/-- Vertical extent of `extract_table_image_ocr` before validation:
`y1 = next_element_top - 5` when `next_element_top` is truthy (provided
and nonzero) and `> y0 + 20`, else `min(y0 + 500, H - 50)`. -/
def computeY1 (y0 : ℚ) (nextTop : Option ℚ) (H : ℚ) : ℚ :=
  match nextTop with
  | some t => if t ≠ 0 ∧ y0 + 20 < t then t - 5 else min (y0 + 500) (H - 50)
  | none => min (y0 + 500) (H - 50)

/-- A caption found by `find_table_captions`: its span text and bbox. -/
structure Caption where
  text : List Char
  bbox : Rect4
deriving DecidableEq, Repr

/-- One page of the document as the pipeline sees it: page geometry, the
plain text of `page.get_text()`, the captions found by
`find_table_captions`, and the pdfplumber-detected tables. -/
structure PageData where
  width : ℚ
  height : ℚ
  text : List Char
  captions : List Caption
  tables : List Rect4

/-- `extract_table_image_ocr(page_num, caption_bbox, next_element_top)` of
`something.py`, with the OCR engine passed as an oracle `ocr` mapping a
page index and a clip rectangle to the raw recognised text: infer the crop
rectangle, abort with `""` when the region's top is at or past the page
bottom, otherwise return the stripped OCR text of the region. -/
def extract_table_image_ocr (ocr : Nat → Rect4 → List Char) (pd : PageData)
    (pageNum : Nat) (capBBox : Rect4) (nextTop : Option ℚ) : List Char :=
  let crop := inferXCrop capBBox pd.width
  let y0 := capBBox.y1 + 5
  let y1 := computeY1 y0 nextTop pd.height
  let y1v := if y1 ≤ y0 then min (y0 + 300) pd.height else y1
  if pd.height ≤ y0 then []
  else pyStrip (ocr pageNum ⟨crop.1, y0, crop.2, y1v⟩)

/-- An entry of `self.processed_tables`: page number (1-based), caption
text, extracted content, and the `'type'` tag. -/
structure ExtractedTable where
  page : Nat
  caption : List Char
  content : List Char
  ttype : List Char
deriving DecidableEq, Repr

/-- The document plus the OCR engine: everything `process` reads. -/
structure Env where
  pages : List PageData
  ocr : Nat → Rect4 → List Char

/-- The mutable state of `process`: the `full_content` lines, the
accumulated `self.processed_tables`, and the two counters. -/
structure ProcState where
  content : List (List Char)
  tables : List ExtractedTable
  tableCount : Nat
  imageCount : Nat

/-- The caption loop of `process` on one page: skip captions whose text
was already processed on this page, count covered captions as native
tables, and for uncovered ones bump both counters, run OCR bounded by the
next caption's top, and store an `ExtractedTable` only for nonempty
text. -/
def capLoop (ocr : Nat → Rect4 → List Char) (pd : PageData) (pageNum : Nat) :
    List Caption → List (List Char) → ProcState → ProcState
  | [], _, st => st
  | c :: rest, proc, st =>
    if c.text ∈ proc then capLoop ocr pd pageNum rest proc st
    else
      match is_covered_by_pdfplumber pd.tables c.bbox with
      | some _ =>
        capLoop ocr pd pageNum rest (c.text :: proc)
          { st with tableCount := st.tableCount + 1 }
      | none =>
        let nextTop := rest.head?.map fun c2 => c2.bbox.y0
        let txt := extract_table_image_ocr ocr pd pageNum c.bbox nextTop
        capLoop ocr pd pageNum rest (c.text :: proc)
          { st with
            tableCount := st.tableCount + 1
            imageCount := st.imageCount + 1
            tables :=
              if txt ≠ [] then
                st.tables ++ [⟨pageNum + 1, c.text, txt, "image_ocr".data⟩]
              else st.tables }

/-- The per-page body of `process`: run the caption loop, then append the
page marker, the page text, and (when this page stored tables) the
delimited image-table block to `full_content`. -/
def processPage (ocr : Nat → Rect4 → List Char) (pageNum : Nat) (pd : PageData)
    (st : ProcState) : ProcState :=
  let st1 := capLoop ocr pd pageNum pd.captions [] st
  let content1 := st1.content ++
    [("--- Page ".data ++ (Nat.repr (pageNum + 1)).data ++ " ---".data), pd.text]
  let pageTabs := st1.tables.filter fun t => t.page = pageNum + 1
  let content2 :=
    if pageTabs ≠ [] then
      content1 ++ "\n=== DETECTED IMAGE-BASED TABLES ===".data ::
        (pageTabs.map fun t =>
          [("Caption: ".data ++ t.caption), t.content,
            "===================================\n".data]).flatten
    else content1
  { st1 with content := content2 }

/-- The page loop of `process`. -/
def pageLoop (ocr : Nat → Rect4 → List Char) :
    Nat → List PageData → ProcState → ProcState
  | _, [], st => st
  | pageNum, pd :: rest, st =>
    pageLoop ocr (pageNum + 1) rest (processPage ocr pageNum pd st)

/-- `AdvancedPDFProcessor.process()` of `something.py`: iterate the pages
and return `("\n".join(full_content), table_count, image_table_count)`
together with the accumulated `self.processed_tables`. -/
def process (env : Env) : List Char × List ExtractedTable × Nat × Nat :=
  let st := pageLoop env.ocr 0 env.pages ⟨[], [], 0, 0⟩
  (joinNl st.content, st.tables, st.tableCount, st.imageCount)

/-- The section marker of the wire format. -/
def markerChars : List Char := "=== DETECTED IMAGE-BASED TABLES ===".data

/-- Python `content.split(sep)` for a nonempty separator: split at each
leftmost non-overlapping occurrence.  (Python raises on an empty
separator; the guard keeps the recursion total and is never taken for the
marker.) -/
def splitOnStrAux (sep : List Char) : List Char → List Char → List (List Char)
  | acc, [] => [acc.reverse]
  | acc, c :: rest =>
    if hne : sep ≠ [] ∧ sep.isPrefixOf (c :: rest) then
      acc.reverse :: splitOnStrAux sep [] ((c :: rest).drop sep.length)
    else splitOnStrAux sep (c :: acc) rest
  termination_by _ cs => cs.length
  decreasing_by
    · simp only [List.length_drop, List.length_cons]
      have : 1 ≤ sep.length := List.length_pos.mpr hne.1
      omega
    · simp

/-- Python `content.split(sep)`. -/
def splitOnStr (sep cs : List Char) : List (List Char) := splitOnStrAux sep [] cs

/-- The literal core of the caption pattern
`(Caption: TABLE \d+\.?)` (IGNORECASE), lowercased for comparison. -/
def capLit : List Char := "caption: table ".data

/-- One anchored attempt of the caption pattern at the start of `cs`:
the case-insensitive literal, a nonempty greedy digit run, an optional
dot.  Returns the matched text (original case, as `re.split` yields it)
and the rest. -/
def matchCaptionAt (cs : List Char) : Option (List Char × List Char) :=
  if pyLower (cs.take capLit.length) = capLit then
    let rest := cs.drop capLit.length
    let ds := rest.takeWhile Char.isDigit
    if ds = [] then none
    else
      match rest.dropWhile Char.isDigit with
      | '.' :: r2 => some (cs.take capLit.length ++ ds ++ ['.'], r2)
      | r2 => some (cs.take capLit.length ++ ds, r2)
  else none

/-- `re.split(r"(Caption: TABLE \d+\.?)", text, flags=re.IGNORECASE)`:
scan left to right; each match becomes its own element (the pattern is one
capture group) between the unmatched stretches.  Every step consumes at
least one character, so `cs.length` fuel suffices. -/
def capSplitAux : Nat → List Char → List Char → List (List Char)
  | 0, acc, _ => [acc.reverse]
  | _ + 1, acc, [] => [acc.reverse]
  | fuel + 1, acc, c :: rest =>
    match matchCaptionAt (c :: rest) with
    | some (m, r) => acc.reverse :: m :: capSplitAux fuel [] r
    | none => capSplitAux fuel (c :: acc) rest

/-- The caption split of `parse_extracted_file`. -/
def capSplit (cs : List Char) : List (List Char) := capSplitAux cs.length [] cs

/-- One output entry of `parse_extracted_file`:
`{"caption": ..., "markdown": ...}`. -/
structure ParsedTable where
  caption : List Char
  markdown : List Char
deriving DecidableEq, Repr

/-- The chunk loop of `parse_extracted_file`: chunks matching the caption
pattern set `current_caption`; a chunk following a set caption is parsed
into base/tuned rows, each nonempty bucket is rendered, and the caption is
cleared. -/
def processChunks : List (List Char) → List Char → List ParsedTable
  | [], _ => []
  | chunk :: rest, cur =>
    if "Caption:".data.isPrefixOf chunk then processChunks rest (pyStrip chunk)
    else if cur ≠ [] then
      let td := parse_table_block chunk
      ((if td.base ≠ [] then [ParsedTable.mk cur (generate_markdown_table td.base false)] else []) ++
        (if td.tuned ≠ [] then [ParsedTable.mk cur (generate_markdown_table td.tuned true)] else [])) ++
        processChunks rest []
    else processChunks rest cur

/-- The parsing stage of `parse_extracted_file(filepath)` applied to the
file's text (the file read itself is I/O): split on the section marker,
return `[]` when the marker is absent, otherwise run the caption split and
chunk loop over every section after the first part. -/
def parse_extracted_content (content : List Char) : List ParsedTable :=
  let parts := splitOnStr markerChars content
  if parts.length < 2 then []
  else (parts.tail.map fun sec => processChunks (capSplit sec) []).flatten

/-- Specification-side instrumentation of the caption loop: how many
uncovered, not-yet-processed captions lead to an OCR attempt that returns
the empty string (including aborted regions).  Mirrors `capLoop` exactly
but counts instead of mutating. -/
def emptyCapCount (ocr : Nat → Rect4 → List Char) (pd : PageData) (pageNum : Nat) :
    List Caption → List (List Char) → Nat
  | [], _ => 0
  | c :: rest, proc =>
    if c.text ∈ proc then emptyCapCount ocr pd pageNum rest proc
    else
      match is_covered_by_pdfplumber pd.tables c.bbox with
      | some _ => emptyCapCount ocr pd pageNum rest (c.text :: proc)
      | none =>
        (if extract_table_image_ocr ocr pd pageNum c.bbox
            (rest.head?.map fun c2 => c2.bbox.y0) = [] then 1 else 0) +
          emptyCapCount ocr pd pageNum rest (c.text :: proc)

/-- Specification-side count of empty OCR outcomes over the whole
document. -/
def emptyOcrCountAux (ocr : Nat → Rect4 → List Char) : Nat → List PageData → Nat
  | _, [] => 0
  | pageNum, pd :: rest =>
    emptyCapCount ocr pd pageNum pd.captions [] + emptyOcrCountAux ocr (pageNum + 1) rest

/-- Number of OCR attempts of `process` that return empty text. -/
def emptyOcrCount (env : Env) : Nat := emptyOcrCountAux env.ocr 0 env.pages

/-- The first line of a rendered text (everything before the first
newline). -/
def firstLine (cs : List Char) : List Char := cs.takeWhile (fun c => c != '\n')

/-- The coverage condition in the spec's words: the table's top edge lies
strictly between 0 and 100 units below the caption's bottom edge, and the
caption's horizontal midpoint falls strictly within the table's
horizontal span. -/
def coversSpec (cap t : Rect4) : Prop :=
  0 < t.y0 - cap.y1 ∧ t.y0 - cap.y1 < 100 ∧
    t.x0 < (cap.x0 + cap.x1) / 2 ∧ (cap.x0 + cap.x1) / 2 < t.x1

/-- Column-classification property of the Region Inferencer (claim C5):
the three crops with exclusive boundaries, and the three classifications
exhaustive and pairwise exclusive. -/
def C5Prop (b : Rect4) (W : ℚ) : Prop :=
  ((b.x0 + b.x1) / 2 < W * (0.45 : ℚ) → inferXCrop b W = (0, W * (0.55 : ℚ))) ∧
  (W * (0.55 : ℚ) < (b.x0 + b.x1) / 2 → inferXCrop b W = (W * (0.45 : ℚ), W)) ∧
  (W * (0.45 : ℚ) ≤ (b.x0 + b.x1) / 2 ∧ (b.x0 + b.x1) / 2 ≤ W * (0.55 : ℚ) →
    inferXCrop b W = (0, W)) ∧
  ((b.x0 + b.x1) / 2 < W * (0.45 : ℚ) ∨ W * (0.55 : ℚ) < (b.x0 + b.x1) / 2 ∨
    (W * (0.45 : ℚ) ≤ (b.x0 + b.x1) / 2 ∧ (b.x0 + b.x1) / 2 ≤ W * (0.55 : ℚ))) ∧
  ¬((b.x0 + b.x1) / 2 < W * (0.45 : ℚ) ∧ W * (0.55 : ℚ) < (b.x0 + b.x1) / 2) ∧
  ¬((b.x0 + b.x1) / 2 < W * (0.45 : ℚ) ∧ W * (0.45 : ℚ) ≤ (b.x0 + b.x1) / 2) ∧
  ¬(W * (0.55 : ℚ) < (b.x0 + b.x1) / 2 ∧ (b.x0 + b.x1) / 2 ≤ W * (0.55 : ℚ))

/-- Vertical-extent property of the Region Inferencer as the code decides
it (claim C3, amended): with `top = caption bottom + 5`, the bottom is
`next − 5` exactly under the code's guard — `next` truthy and
`next > top + 20`, i.e. the choice leaves MORE THAN 15 units of height —
and `min(top + 500, H − 50)` otherwise. -/
def C3Prop (capBottom H : ℚ) (next : Option ℚ) : Prop :=
  computeY1 (capBottom + 5) next H =
    match next with
    | some t =>
      if t ≠ 0 ∧ 15 < (t - 5) - (capBottom + 5) then t - 5
      else min ((capBottom + 5) + 500) (H - 50)
    | none => min ((capBottom + 5) + 500) (H - 50)

/-- A nonempty run of whitespace (`\s+`). -/
def wsRun (w : List Char) : Prop := w ≠ [] ∧ ∀ c ∈ w, isPyWs c = true

/-- A word of the number sublanguage `[0-9]*\.\d+`: digits, a dot, then
at least one digit. -/
def isFloatTok (t : List Char) : Prop :=
  ∃ ds ds2, t = ds ++ '.' :: ds2 ∧ (∀ c ∈ ds, c.isDigit = true) ∧
    (∀ c ∈ ds2, c.isDigit = true) ∧ ds2 ≠ []

/-- The declarative reading of the tail of `row_pattern`: whitespace and
a number, three times, then arbitrary rest. -/
def tailSpec (b : List Char) : Prop :=
  ∃ w1 t1 w2 t2 w3 t3 r, b = w1 ++ t1 ++ w2 ++ t2 ++ w3 ++ t3 ++ r ∧
    wsRun w1 ∧ wsRun w2 ∧ wsRun w3 ∧ isFloatTok t1 ∧ isFloatTok t2 ∧ isFloatTok t3

/-- The declarative reading of the whole `row_pattern`: a nonempty label,
then whitespace and three whitespace-separated numbers, then arbitrary
trailing text (the pattern has no end anchor). -/
def rowAccepts (cs : List Char) : Prop :=
  ∃ lab b, cs = lab ++ b ∧ lab ≠ [] ∧ tailSpec b

/-- A plain model label: nonempty and free of whitespace, digits and
dots (e.g. any ASCII-letter name such as `SVM` or `CNN`). -/
def plainLabel (M : List Char) : Prop :=
  M ≠ [] ∧ ∀ c ∈ M, isPyWs c = false ∧ c.isDigit = false ∧ c ≠ '.'

section Lemmata

/-- `tableSat` decides `coversSpec`. -/
theorem tableSat_eq_true {cap t : Rect4} :
    tableSat cap t = true ↔ coversSpec cap t := by
  simp [tableSat, coversSpec, and_assoc]

/-- `tableSat` is false exactly when `coversSpec` fails. -/
theorem tableSat_eq_false {cap t : Rect4} :
    tableSat cap t = false ↔ ¬ coversSpec cap t := by
  rw [← tableSat_eq_true]
  simp

/-- `firstLine` of a newline-joined text whose first piece has no newline
is that piece. -/
theorem firstLine_append (l r : List Char) (h : '\n' ∉ l) :
    firstLine (l ++ '\n' :: r) = l := by
  induction l with
  | nil => simp [firstLine]
  | cons c cs ih =>
    have hc : c ≠ '\n' := fun hc => h (hc ▸ List.mem_cons_self c cs)
    have hcs : '\n' ∉ cs := fun hm => h (List.mem_cons_of_mem c hm)
    have hbc : (c != '\n') = true := bne_iff_ne.mpr hc
    simp only [List.cons_append, firstLine, List.takeWhile_cons, hbc, if_true]
    exact congrArg (c :: ·) (ih hcs)

/-- The first line of any rendered markdown table is its context label. -/
theorem firstLine_generate (rows : List ParsedRow) (b : Bool) :
    firstLine (generate_markdown_table rows b) = contextLabel b := by
  rw [generate_markdown_table, joinNl]
  exact firstLine_append _ _ (by cases b <;> decide)

/-- The decimal digit characters are digits. -/
theorem digitChar_isDigit {n : Nat} (h : n < 10) : (Nat.digitChar n).isDigit = true := by
  interval_cases n <;> decide

/-- With positive fuel the digit string is never empty. -/
theorem natDigitsAux_ne_nil (fuel n : Nat) : natDigitsAux (fuel + 1) n ≠ [] := by
  rw [natDigitsAux]
  split <;> simp

/-- `natDigits` never returns the empty list. -/
theorem natDigits_ne_nil (n : Nat) : natDigits n ≠ [] := natDigitsAux_ne_nil n n

/-- Every character the digit printer emits is a digit. -/
theorem natDigitsAux_all_digit :
    ∀ (fuel n : Nat), ∀ c ∈ natDigitsAux fuel n, c.isDigit = true := by
  intro fuel
  induction fuel with
  | zero => simp [natDigitsAux]
  | succ f ih =>
    intro n c hc
    rw [natDigitsAux] at hc
    split at hc
    · next h =>
      rw [List.mem_singleton] at hc
      subst hc
      exact digitChar_isDigit h
    · next h =>
      rcases List.mem_append.mp hc with h1 | h1
      · exact ih (n / 10) c h1
      · rw [List.mem_singleton] at h1
        subst h1
        exact digitChar_isDigit (Nat.mod_lt _ (by omega))

/-- Every character of `natDigits` is a digit. -/
theorem natDigits_all_digit (n : Nat) : ∀ c ∈ natDigits n, c.isDigit = true :=
  natDigitsAux_all_digit (n + 1) n

/-- A number below `10^(k+1)` prints with at most `k+1` digits. -/
theorem natDigitsAux_length_le :
    ∀ (fuel k n : Nat), n < 10 ^ (k + 1) → (natDigitsAux fuel n).length ≤ k + 1 := by
  intro fuel
  induction fuel with
  | zero =>
    intro k n _
    simp [natDigitsAux]
  | succ f ih =>
    intro k n h
    rw [natDigitsAux]
    split
    · simp
    · next hn =>
      rcases k with _ | k2
      · exact absurd (by simpa using h) hn
      · have hd : n / 10 < 10 ^ (k2 + 1) := by
          rw [Nat.div_lt_iff_lt_mul (by omega)]
          calc n < 10 ^ (k2 + 1 + 1) := h
            _ = 10 ^ (k2 + 1) * 10 := by ring
        have := ih k2 (n / 10) hd
        simp only [List.length_append, List.length_singleton]
        omega

/-- A number below `10^(k+1)` has at most `k+1` digits. -/
theorem natDigits_length_le (k n : Nat) (h : n < 10 ^ (k + 1)) :
    (natDigits n).length ≤ k + 1 :=
  natDigitsAux_length_le (n + 1) k n h

/-- For `m < 10000` the padded fraction has exactly four characters. -/
theorem pad4_length {m : Nat} (h : m < 10000) : (pad4 m).length = 4 := by
  have h4 : m < 10 ^ (3 + 1) := by simpa using h
  have := natDigits_length_le 3 m h4
  simp only [pad4, List.length_append, List.length_replicate]
  omega

/-- Every character of the padded fraction is a digit. -/
theorem pad4_all_digit (m : Nat) : ∀ c ∈ pad4 m, c.isDigit = true := by
  intro c hc
  rcases List.mem_append.mp hc with h1 | h1
  · rw [List.eq_of_mem_replicate h1]
    decide
  · exact natDigits_all_digit m c h1

/-- Half-even rounding of a nonnegative number is nonnegative. -/
theorem rhe_nonneg {q : ℚ} (h : 0 ≤ q) : 0 ≤ rhe q := by
  have hf : 0 ≤ ⌊q⌋ := Int.floor_nonneg.mpr h
  unfold rhe
  split_ifs <;> omega

/-- Half-even rounding of a number below `N + 1/2` is at most `N`. -/
theorem rhe_le {q : ℚ} {N : ℤ} (h : q < N + 1 / 2) : rhe q ≤ N := by
  have hfl : ⌊q⌋ ≤ N := by
    have h1 : (⌊q⌋ : ℚ) ≤ q := Int.floor_le q
    have h2 : (⌊q⌋ : ℚ) < (N : ℚ) + 1 := by linarith
    have h3 : ⌊q⌋ < N + 1 := by exact_mod_cast h2
    omega
  unfold rhe
  split_ifs with h1 h2 h3
  · exact hfl
  · have hq : (⌊q⌋ : ℚ) + 1 / 2 < q := by linarith
    have : (⌊q⌋ : ℚ) < (N : ℚ) := by linarith
    have : ⌊q⌋ < N := by exact_mod_cast this
    omega
  · exact hfl
  · have hr : q - ⌊q⌋ = 1 / 2 := le_antisymm (not_lt.mp h2) (not_lt.mp h1)
    have : (⌊q⌋ : ℚ) < (N : ℚ) := by linarith
    have : ⌊q⌋ < N := by exact_mod_cast this
    omega

/-- `fmtFloat` leaves a formatted text whose head is not a dot
unchanged. -/
theorem fmtFloat_eq_of_head {q : ℚ} {c : Char} {cs : List Char}
    (hf : formatQ q = c :: cs) (hc : c ≠ '.') : fmtFloat q = c :: cs := by
  unfold fmtFloat
  rw [hf]
  split
  · next heq => exact absurd (List.head_eq_of_cons_eq heq) hc
  · rfl

/-- The shape of every formatted float: an optional sign and at least one
digit, a dot, then exactly four digits; the head is never the dot. -/
theorem formatQ_shape (q : ℚ) :
    ∃ a b, formatQ q = a ++ '.' :: b ∧ b.length = 4 ∧
      (∀ c ∈ b, c.isDigit = true) ∧ a ≠ [] ∧ ∀ c ∈ a, c ≠ '.' := by
  unfold formatQ
  split
  · next h =>
    refine ⟨'-' :: natDigits ((rhe (q * 10000)).natAbs / 10000),
      pad4 ((rhe (q * 10000)).natAbs % 10000), by simp,
      pad4_length (Nat.mod_lt _ (by omega)), pad4_all_digit _, by simp, ?_⟩
    intro c hcm
    rcases List.mem_cons.mp hcm with h1 | h1
    · subst h1
      decide
    · intro he
      have := natDigits_all_digit _ c h1
      rw [he] at this
      exact absurd this (by decide)
  · refine ⟨natDigits ((rhe (q * 10000)).toNat / 10000),
      pad4 ((rhe (q * 10000)).toNat % 10000), rfl,
      pad4_length (Nat.mod_lt _ (by omega)), pad4_all_digit _,
      natDigits_ne_nil _, ?_⟩
    intro c h1 he
    have := natDigits_all_digit _ c h1
    rw [he] at this
    exact absurd this (by decide)

/-- The shape of `fmtFloat`: same as `formatQ`, and the head is never a
dot. -/
theorem fmtFloat_shape (q : ℚ) :
    ∃ a b, fmtFloat q = a ++ '.' :: b ∧ b.length = 4 ∧
      (∀ c ∈ b, c.isDigit = true) ∧ a ≠ [] ∧ a.head? ≠ some '.' := by
  obtain ⟨a, b, hf, hb4, hbd, ha, had⟩ := formatQ_shape q
  rcases a with _ | ⟨c, a2⟩
  · exact absurd rfl ha
  · have hc : c ≠ '.' := had c (List.mem_cons_self c a2)
    have hff : fmtFloat q = c :: (a2 ++ '.' :: b) :=
      fmtFloat_eq_of_head (by simpa using hf) hc
    exact ⟨c :: a2, b, by simpa using hff, hb4, hbd, by simp, by simp [hc]⟩

end Lemmata

/-- C2: `is_covered_by_pdfplumber` returns a table iff some detected table
on the page starts strictly 0–100 units below the caption's bottom with
the caption midpoint strictly inside its horizontal span, returning the
first such table in detector order; at the boundaries, gap 0, negative
gap and gap 100 are rejected, gap 99 with the midpoint inside is accepted,
and a midpoint outside the span is rejected. -/
theorem c2_coverage_checker :
    (∀ (tables : List Rect4) (cap t : Rect4),
      is_covered_by_pdfplumber tables cap = some t ↔
        coversSpec cap t ∧
          ∃ pre post, tables = pre ++ t :: post ∧ ∀ u ∈ pre, ¬ coversSpec cap u) ∧
    is_covered_by_pdfplumber [⟨0, 10, 10, 20⟩] ⟨0, 0, 10, 10⟩ = none ∧
    is_covered_by_pdfplumber [⟨0, 5, 10, 20⟩] ⟨0, 0, 10, 10⟩ = none ∧
    is_covered_by_pdfplumber [⟨0, 110, 10, 120⟩] ⟨0, 0, 10, 10⟩ = none ∧
    is_covered_by_pdfplumber [⟨0, 109, 10, 120⟩] ⟨0, 0, 10, 10⟩ = some ⟨0, 109, 10, 120⟩ ∧
    is_covered_by_pdfplumber [⟨6, 60, 10, 70⟩] ⟨0, 0, 10, 10⟩ = none := by
  refine ⟨fun tables cap t => ?_, ?_, ?_, ?_, ?_, ?_⟩
  · rw [is_covered_by_pdfplumber, List.find?_eq_some]
    simp only [tableSat_eq_true, Bool.not_eq_true', tableSat_eq_false]
  all_goals
    simp only [is_covered_by_pdfplumber, List.find?_cons, List.find?_nil]
    norm_num [tableSat]

/-- C3 (amended): the region bottom is `next − 5` exactly when `next` is
truthy and exceeds `top + 20` — that is, when the choice leaves more than
15 units of height — and `min(top + 500, H − 50)` otherwise (also when no
next caption exists). -/
theorem c3_vertical_extent (capBottom H : ℚ) (next : Option ℚ) :
    C3Prop capBottom H next := by
  cases next with
  | none => rfl
  | some t =>
    show computeY1 (capBottom + 5) (some t) H =
      if t ≠ 0 ∧ 15 < (t - 5) - (capBottom + 5) then t - 5
      else min ((capBottom + 5) + 500) (H - 50)
    have h1 : computeY1 (capBottom + 5) (some t) H =
        if t ≠ 0 ∧ (capBottom + 5) + 20 < t then t - 5
        else min ((capBottom + 5) + 500) (H - 50) := rfl
    rw [h1]
    exact if_congr
      (by constructor <;> rintro ⟨ha, hb⟩ <;> exact ⟨ha, by linarith⟩) rfl rfl

/-- C3 counterexample: with caption bottom 0 (top = 5), next caption top
27 and page height 1000, the region's bottom is 22 although the choice
leaves only 17 < 20 units of height — the claim would demand
`min(top + 500, H − 50) = 505`. -/
theorem c3_counterexample :
    computeY1 (0 + 5) (some 27) 1000 = 22 ∧
      ((27 : ℚ) - 5) - (0 + 5) < 20 ∧
      (22 : ℚ) ≠ min ((0 + 5) + 500) (1000 - 50) := by
  refine ⟨?_, by norm_num, by norm_num⟩
  rw [computeY1, if_pos (by norm_num)]
  norm_num

/-- C4: parsing the three-line block yields exactly one BASE row
(SVM, 0.9123, 0.8890, 0.9001) and one TUNED row (CNN, 0.85, 0.80, 0.90). -/
theorem c4_state_machine :
    parse_table_block "SVM 0.9123 0.8890 0.9001\ntuned\nCNN .8500 .8000 .9000".data =
      { base := [⟨"SVM".data, 9123/10000, 8890/10000, 9001/10000⟩],
        tuned := [⟨"CNN".data, 8500/10000, 8000/10000, 9000/10000⟩] } := by
  simp [parse_table_block, parseLineStep, pyStrip, rowMatch, rowMatchFrom, groupSearch,
    rowMatchAux, tailMatch, skipWs1, parseFloatTok, floatOfTok, pyLower, containsSub,
    isPyWs, digitsToNat, List.splitOn, List.splitOnP, List.splitOnP.go]
  norm_num

/-- C5: the caption midpoint strictly left of 0.45·W selects the left
crop, strictly right of 0.55·W the right crop, and otherwise — both
boundaries included — the full width; the three classifications are
exhaustive and pairwise exclusive. -/
theorem c5_column_classification (b : Rect4) (W : ℚ) (hW : 0 < W) :
    C5Prop b W := by
  unfold C5Prop inferXCrop
  have hab : W * (0.45 : ℚ) < W * (0.55 : ℚ) := by nlinarith
  refine ⟨fun h => ?_, fun h => ?_, fun h => ?_, ?_, ?_, ?_, ?_⟩
  · rw [if_pos h]
  · rw [if_neg (by linarith), if_pos h]
  · rw [if_neg (by linarith [h.1]), if_neg (by linarith [h.2])]
  · rcases lt_trichotomy ((b.x0 + b.x1) / 2) (W * (0.45 : ℚ)) with h | h | h
    · exact Or.inl h
    · exact Or.inr (Or.inr ⟨le_of_eq h.symm, by linarith⟩)
    · rcases le_or_lt ((b.x0 + b.x1) / 2) (W * (0.55 : ℚ)) with h2 | h2
      · exact Or.inr (Or.inr ⟨le_of_lt h, h2⟩)
      · exact Or.inr (Or.inl h2)
  · rintro ⟨h1, h2⟩
    linarith
  · rintro ⟨h1, h2⟩
    linarith
  · rintro ⟨h1, h2⟩
    linarith

/-- C5 witness: page width 100, caption span 20–40 (midpoint 30). -/
theorem c5_witness : (0 : ℚ) < 100 ∧ C5Prop ⟨20, 0, 40, 0⟩ 100 :=
  ⟨by norm_num, c5_column_classification ⟨20, 0, 40, 0⟩ 100 (by norm_num)⟩

/-- C7 (amended): the rendered context line is exactly
`**Context: Tuned / Optimized Performance**` (spaces around the slash)
for a TUNED bucket and `**Context: Base Performance**` for a BASE
bucket. -/
theorem c7_context_labels :
    ∀ (rows : List ParsedRow) (b : Bool),
      firstLine (generate_markdown_table rows b) = contextLabel b ∧
        contextLabel true = "**Context: Tuned / Optimized Performance**".data ∧
        contextLabel false = "**Context: Base Performance**".data :=
  fun rows b => ⟨firstLine_generate rows b, rfl, rfl⟩

/-- C7 counterexample: the tuned context line rendered for a nonempty
bucket carries spaces around the slash and so is NOT the claimed literal
`**Context: Tuned/Optimized Performance**`. -/
theorem c7_counterexample :
    firstLine (generate_markdown_table [⟨"SVM".data, 1/2, 1/2, 1/2⟩] true) =
        "**Context: Tuned / Optimized Performance**".data ∧
      "**Context: Tuned / Optimized Performance**".data ≠
        "**Context: Tuned/Optimized Performance**".data :=
  ⟨firstLine_generate _ _, by decide⟩

/-- C8 (amended): every float is formatted with exactly four digits after
the (single) decimal point and the result never starts with `"."`; for
`v ∈ [0, 1)` whose 4-decimal rounding stays below 1 (`v < 0.99995`) the
result is `"0."` followed by exactly four digits; a string that does not
parse as a float is returned unchanged. -/
theorem c8_format_value (v w : ℚ) (s : List Char) (hw0 : 0 ≤ w)
    (hw1 : w < 99995 / 100000) (hs : pyFloat? s = none) :
    (∃ a b, format_value (PyVal.num v) = a ++ '.' :: b ∧ b.length = 4 ∧
        (∀ c ∈ b, c.isDigit = true) ∧ a ≠ [] ∧ a.head? ≠ some '.') ∧
      (∃ ds, format_value (PyVal.num w) = '0' :: '.' :: ds ∧ ds.length = 4 ∧
        ∀ c ∈ ds, c.isDigit = true) ∧
      format_value (PyVal.str s) = s := by
  refine ⟨fmtFloat_shape v, ?_, by simp [format_value, hs]⟩
  have hn0 : 0 ≤ rhe (w * 10000) := rhe_nonneg (by nlinarith)
  have hn1 : rhe (w * 10000) ≤ 9999 := rhe_le (by push_cast; linarith)
  have hm : (rhe (w * 10000)).toNat % 10000 < 10000 := Nat.mod_lt _ (by omega)
  have hdiv : (rhe (w * 10000)).toNat / 10000 = 0 := Nat.div_eq_of_lt (by omega)
  have h0 : natDigits 0 = ['0'] := by decide
  have hfq : formatQ w = '0' :: '.' :: pad4 ((rhe (w * 10000)).toNat % 10000) := by
    unfold formatQ
    rw [if_neg (by omega), hdiv, h0]
    rfl
  exact ⟨pad4 ((rhe (w * 10000)).toNat % 10000),
    fmtFloat_eq_of_head hfq (by decide), pad4_length hm, pad4_all_digit _⟩

/-- C8 witness: `v = −3/2` (negative, sign-led), `w = 1/2` (unit
interval), `s = "abc"` (fails float parsing). -/
theorem c8_witness :
    (0 : ℚ) ≤ 1 / 2 ∧ (1 / 2 : ℚ) < 99995 / 100000 ∧ pyFloat? "abc".data = none ∧
      ((∃ a b, format_value (PyVal.num (-3 / 2)) = a ++ '.' :: b ∧ b.length = 4 ∧
          (∀ c ∈ b, c.isDigit = true) ∧ a ≠ [] ∧ a.head? ≠ some '.') ∧
        (∃ ds, format_value (PyVal.num (1 / 2)) = '0' :: '.' :: ds ∧ ds.length = 4 ∧
          ∀ c ∈ ds, c.isDigit = true) ∧
        format_value (PyVal.str "abc".data) = "abc".data) :=
  ⟨by norm_num, by norm_num, by decide,
    c8_format_value (-3 / 2) (1 / 2) "abc".data (by norm_num) (by norm_num) (by decide)⟩

/-- C8 counterexample: `v = 0.99999` lies in `[0, 1)` but formats to
`"1.0000"`, which is not `"0."` followed by four digits. -/
theorem c8_counterexample :
    (0 : ℚ) ≤ 99999 / 100000 ∧ (99999 / 100000 : ℚ) < 1 ∧
      format_value (PyVal.num (99999 / 100000)) = "1.0000".data ∧
      "0.".data.isPrefixOf "1.0000".data = false := by
  have hq : (99999 / 100000 : ℚ) * 10000 = 99999 / 10 := by norm_num
  have hfl : ⌊(99999 / 10 : ℚ)⌋ = 9999 := by
    rw [Int.floor_eq_iff]
    norm_num
  have hrhe : rhe (99999 / 10 : ℚ) = 10000 := by
    unfold rhe
    rw [hfl]
    norm_num
  refine ⟨by norm_num, by norm_num, ?_, by decide⟩
  show fmtFloat (99999 / 100000) = "1.0000".data
  unfold fmtFloat formatQ
  rw [hq, hrhe]
  decide

/-- A split on a separator that occurs nowhere returns the single whole
input (prefixed by the accumulator so far). -/
theorem splitOnStrAux_of_no_prefix (sep : List Char) :
    ∀ (cs acc : List Char), (∀ t, t <:+ cs → sep.isPrefixOf t ≠ true) →
      splitOnStrAux sep acc cs = [acc.reverse ++ cs] := by
  intro cs
  induction cs with
  | nil =>
    intro acc _
    simp [splitOnStrAux]
  | cons c rest ih =>
    intro acc h
    rw [splitOnStrAux, dif_neg fun hc => h (c :: rest) (List.suffix_refl _) hc.2]
    rw [ih (c :: acc) fun t ht => h t (ht.trans (List.suffix_cons c rest))]
    simp

/-- C9: a document text that does not contain the literal section marker
`=== DETECTED IMAGE-BASED TABLES ===` parses to zero tables (and in
particular raises nothing: the parsing stage is total). -/
theorem c9_missing_marker (content : List Char)
    (h : ¬ markerChars <:+: content) :
    parse_extracted_content content = [] := by
  have hsplit : splitOnStr markerChars content = [content] := by
    apply splitOnStrAux_of_no_prefix
    intro t ht hpre
    exact h (List.infix_iff_prefix_suffix.mpr ⟨t, List.isPrefixOf_iff_prefix.mp hpre, ht⟩)
  unfold parse_extracted_content splitOnStr at hsplit ⊢
  rw [hsplit]
  simp

/-- C9 witness: the five-character text `hello` cannot contain the
35-character marker. -/
theorem c9_witness :
    ¬ markerChars <:+: "hello".data ∧ parse_extracted_content "hello".data = [] := by
  have hni : ¬ markerChars <:+: "hello".data := by
    intro hinf
    have hle := hinf.length_le
    revert hle
    decide
  exact ⟨hni, c9_missing_marker "hello".data hni⟩

/-- A digit is not Python whitespace. -/
theorem not_ws_of_digit {c : Char} (h : c.isDigit = true) : isPyWs c = false := by
  rcases hc : isPyWs c
  · rfl
  · exfalso
    simp only [isPyWs, Bool.or_eq_true, decide_eq_true_eq] at hc
    have h6 : c = ' ' ∨ c = '\t' ∨ c = '\n' ∨ c = '\r' ∨ c = '\x0b' ∨ c = '\x0c' := by
      tauto
    rcases h6 with h1 | h1 | h1 | h1 | h1 | h1 <;>
      (subst h1; exact absurd h (by decide))

/-- Python whitespace is not a digit. -/
theorem not_digit_of_ws {c : Char} (h : isPyWs c = true) : c.isDigit = false := by
  rcases hc : c.isDigit
  · rfl
  · rw [not_ws_of_digit hc] at h
    exact absurd h (by simp)

/-- `takeWhile` passes over a block that satisfies the predicate. -/
theorem takeWhile_append_all {p : Char → Bool} :
    ∀ (xs ys : List Char), (∀ c ∈ xs, p c = true) →
      (xs ++ ys).takeWhile p = xs ++ ys.takeWhile p := by
  intro xs ys
  induction xs with
  | nil => simp
  | cons c r ih =>
    intro h
    have hc := h c (List.mem_cons_self c r)
    simp only [List.cons_append, List.takeWhile_cons, hc, if_true]
    rw [ih fun d hd => h d (List.mem_cons_of_mem c hd)]

/-- `dropWhile` drops a whole block that satisfies the predicate. -/
theorem dropWhile_append_all {p : Char → Bool} :
    ∀ (xs ys : List Char), (∀ c ∈ xs, p c = true) →
      (xs ++ ys).dropWhile p = ys.dropWhile p := by
  intro xs ys
  induction xs with
  | nil => simp
  | cons c r ih =>
    intro h
    have hc := h c (List.mem_cons_self c r)
    simp only [List.cons_append, List.dropWhile_cons, hc, if_true]
    exact ih fun d hd => h d (List.mem_cons_of_mem c hd)

/-- `dropWhile` keeps a list whose head fails the predicate. -/
theorem dropWhile_head_no (p : Char → Bool) (r : List Char)
    (hr : ∀ c, r.head? = some c → p c = false) : r.dropWhile p = r := by
  cases r with
  | nil => rfl
  | cons d r2 => exact List.dropWhile_cons_of_neg (by simp [hr d rfl])

/-- `takeWhile` takes nothing from a list whose head fails the
predicate. -/
theorem takeWhile_head_no (p : Char → Bool) (r : List Char)
    (hr : ∀ c, r.head? = some c → p c = false) : r.takeWhile p = [] := by
  cases r with
  | nil => rfl
  | cons d r2 => exact List.takeWhile_cons_of_neg (by simp [hr d rfl])

/-- Soundness of the `\s+` step: it consumes a nonempty whitespace run. -/
theorem skipWs1_sound {cs r : List Char} (h : skipWs1 cs = some r) :
    ∃ w, cs = w ++ r ∧ wsRun w := by
  cases cs with
  | nil => simp [skipWs1] at h
  | cons c rest =>
    simp only [skipWs1] at h
    by_cases hw : isPyWs c = true
    · rw [if_pos hw] at h
      have hr := Option.some.inj h
      refine ⟨c :: rest.takeWhile isPyWs, ?_, by simp, ?_⟩
      · rw [← hr, List.cons_append, List.takeWhile_append_dropWhile]
      · intro d hd
        rcases List.mem_cons.mp hd with h1 | h1
        · exact h1 ▸ hw
        · exact List.mem_takeWhile_imp h1
    · rw [if_neg hw] at h
      exact absurd h (by simp)

/-- Completeness of the `\s+` step: a whitespace run followed by a
non-whitespace head is consumed exactly. -/
theorem skipWs1_complete {w r : List Char} (hw : wsRun w)
    (hr : ∀ c, r.head? = some c → isPyWs c = false) :
    skipWs1 (w ++ r) = some r := by
  obtain ⟨hne, hall⟩ := hw
  cases w with
  | nil => exact absurd rfl hne
  | cons c w2 =>
    simp only [List.cons_append, skipWs1]
    rw [if_pos (hall c (List.mem_cons_self c w2))]
    rw [dropWhile_append_all w2 r fun d hd => hall d (List.mem_cons_of_mem c hd)]
    rw [dropWhile_head_no isPyWs r hr]

/-- Soundness of the number step: it consumes one number token. -/
theorem parseFloatTok_sound {cs t r : List Char}
    (h : parseFloatTok cs = some (t, r)) : cs = t ++ r ∧ isFloatTok t := by
  unfold parseFloatTok at h
  split at h
  · next r2 heq =>
    by_cases h2 : r2.takeWhile Char.isDigit = []
    · rw [if_pos h2] at h
      exact absurd h (by simp)
    · rw [if_neg h2] at h
      have h3 := Option.some.inj h
      have ht : cs.takeWhile Char.isDigit ++ '.' :: r2.takeWhile Char.isDigit = t :=
        congrArg Prod.fst h3
      have hrr : r2.dropWhile Char.isDigit = r := congrArg Prod.snd h3
      constructor
      · rw [← ht, ← hrr]
        have hcs : cs.takeWhile Char.isDigit ++ '.' :: r2 = cs := by
          rw [← heq, List.takeWhile_append_dropWhile]
        calc cs = cs.takeWhile Char.isDigit ++ '.' :: r2 := hcs.symm
          _ = cs.takeWhile Char.isDigit ++ '.' ::
              (r2.takeWhile Char.isDigit ++ r2.dropWhile Char.isDigit) := by
                rw [List.takeWhile_append_dropWhile]
          _ = (cs.takeWhile Char.isDigit ++ '.' :: r2.takeWhile Char.isDigit) ++
              r2.dropWhile Char.isDigit := by simp
      · exact ⟨cs.takeWhile Char.isDigit, r2.takeWhile Char.isDigit, ht.symm,
          fun c hc => List.mem_takeWhile_imp hc,
          fun c hc => List.mem_takeWhile_imp hc, h2⟩
  · exact absurd h (by simp)

/-- Completeness of the number step when the continuation does not start
with a digit: the token is consumed exactly. -/
theorem parseFloatTok_complete {ds ds2 u : List Char}
    (hds : ∀ c ∈ ds, c.isDigit = true) (hds2 : ∀ c ∈ ds2, c.isDigit = true)
    (hne : ds2 ≠ []) (hu : ∀ c, u.head? = some c → c.isDigit = false) :
    parseFloatTok (ds ++ '.' :: (ds2 ++ u)) = some (ds ++ '.' :: ds2, u) := by
  have h1 : (ds ++ '.' :: (ds2 ++ u)).takeWhile Char.isDigit = ds := by
    rw [takeWhile_append_all ds _ hds, List.takeWhile_cons_of_neg (by decide)]
    simp
  have h2 : (ds ++ '.' :: (ds2 ++ u)).dropWhile Char.isDigit = '.' :: (ds2 ++ u) := by
    rw [dropWhile_append_all ds _ hds, List.dropWhile_cons_of_neg (by decide)]
  have h3 : (ds2 ++ u).takeWhile Char.isDigit = ds2 := by
    rw [takeWhile_append_all ds2 u hds2, takeWhile_head_no Char.isDigit u hu]
    simp
  have h4 : (ds2 ++ u).dropWhile Char.isDigit = u := by
    rw [dropWhile_append_all ds2 u hds2, dropWhile_head_no Char.isDigit u hu]
  unfold parseFloatTok
  rw [h2]
  split
  · next r heq =>
    injection heq with _ hr
    subst hr
    rw [h1, h3, h4, if_neg hne]
  · next hno => exact absurd rfl (hno (ds2 ++ u))

/-- The number step succeeds on a token followed by anything (used for
the last number, after which the pattern ends). -/
theorem parseFloatTok_isSome_last {ds ds2 u : List Char}
    (hds : ∀ c ∈ ds, c.isDigit = true) (hds2 : ∀ c ∈ ds2, c.isDigit = true)
    (hne : ds2 ≠ []) : (parseFloatTok (ds ++ '.' :: (ds2 ++ u))).isSome = true := by
  have h2 : (ds ++ '.' :: (ds2 ++ u)).dropWhile Char.isDigit = '.' :: (ds2 ++ u) := by
    rw [dropWhile_append_all ds _ hds, List.dropWhile_cons_of_neg (by decide)]
  have h3 : (ds2 ++ u).takeWhile Char.isDigit ≠ [] := by
    rw [takeWhile_append_all ds2 u hds2]
    simp [hne]
  unfold parseFloatTok
  rw [h2]
  split
  · next r heq =>
    injection heq with _ hr
    subst hr
    rw [if_neg h3]
    rfl
  · next hno => exact absurd rfl (hno (ds2 ++ u))

/-- A number token never starts with whitespace, whatever follows it. -/
theorem tok_head_not_ws (ds rest : List Char) (hds : ∀ c ∈ ds, c.isDigit = true) :
    ∀ c, (ds ++ '.' :: rest).head? = some c → isPyWs c = false := by
  intro c hc
  cases ds with
  | nil =>
    simp only [List.nil_append, List.head?_cons, Option.some.injEq] at hc
    subst hc
    decide
  | cons d dr =>
    simp only [List.cons_append, List.head?_cons, Option.some.injEq] at hc
    subst hc
    exact not_ws_of_digit (hds d (List.mem_cons_self d dr))

/-- A whitespace run never starts with a digit, whatever follows it. -/
theorem ws_head_not_digit (w rest : List Char) (hw : wsRun w) :
    ∀ c, (w ++ rest).head? = some c → c.isDigit = false := by
  intro c hc
  obtain ⟨hne, hall⟩ := hw
  cases w with
  | nil => exact absurd rfl hne
  | cons d dr =>
    simp only [List.cons_append, List.head?_cons, Option.some.injEq] at hc
    subst hc
    exact not_digit_of_ws (hall d (List.mem_cons_self d dr))

/-- Soundness of the pattern tail: success yields the declarative
decomposition. -/
theorem tailMatch_sound {b : List Char} (h : (tailMatch b).isSome = true) :
    tailSpec b := by
  unfold tailMatch at h
  cases f1 : skipWs1 b with
  | none => rw [f1] at h; simp at h
  | some r1 =>
    rw [f1] at h
    dsimp only at h
    cases f2 : parseFloatTok r1 with
    | none => rw [f2] at h; simp at h
    | some p1 =>
      obtain ⟨t1, r2⟩ := p1
      rw [f2] at h
      dsimp only at h
      cases f3 : skipWs1 r2 with
      | none => rw [f3] at h; simp at h
      | some r3 =>
        rw [f3] at h
        dsimp only at h
        cases f4 : parseFloatTok r3 with
        | none => rw [f4] at h; simp at h
        | some p2 =>
          obtain ⟨t2, r4⟩ := p2
          rw [f4] at h
          dsimp only at h
          cases f5 : skipWs1 r4 with
          | none => rw [f5] at h; simp at h
          | some r5 =>
            rw [f5] at h
            dsimp only at h
            cases f6 : parseFloatTok r5 with
            | none => rw [f6] at h; simp at h
            | some p3 =>
              obtain ⟨t3, r6⟩ := p3
              obtain ⟨w1, hb1, hw1⟩ := skipWs1_sound f1
              obtain ⟨hr1, ht1⟩ := parseFloatTok_sound f2
              obtain ⟨w2, hb2, hw2⟩ := skipWs1_sound f3
              obtain ⟨hr3, ht2⟩ := parseFloatTok_sound f4
              obtain ⟨w3, hb3, hw3⟩ := skipWs1_sound f5
              obtain ⟨hr5, ht3⟩ := parseFloatTok_sound f6
              refine ⟨w1, t1, w2, t2, w3, t3, r6, ?_, hw1, hw2, hw3, ht1, ht2, ht3⟩
              rw [hb1, hr1, hb2, hr3, hb3, hr5]
              simp [List.append_assoc]

/-- Completeness of the pattern tail: the declarative decomposition makes
the matcher succeed. -/
theorem tailMatch_complete {b : List Char} (h : tailSpec b) :
    (tailMatch b).isSome = true := by
  obtain ⟨w1, t1, w2, t2, w3, t3, r, hb, hw1, hw2, hw3, ht1, ht2, ht3⟩ := h
  obtain ⟨d1, e1, rfl, hd1, he1, hn1⟩ := ht1
  obtain ⟨d2, e2, rfl, hd2, he2, hn2⟩ := ht2
  obtain ⟨d3, e3, rfl, hd3, he3, hn3⟩ := ht3
  subst hb
  simp only [List.append_assoc, List.cons_append]
  unfold tailMatch
  rw [skipWs1_complete hw1 (tok_head_not_ws d1 _ hd1)]
  dsimp only
  rw [parseFloatTok_complete hd1 he1 hn1 (ws_head_not_digit w2 _ hw2)]
  dsimp only
  rw [skipWs1_complete hw2 (tok_head_not_ws d2 _ hd2)]
  dsimp only
  rw [parseFloatTok_complete hd2 he2 hn2 (ws_head_not_digit w3 _ hw3)]
  dsimp only
  rw [skipWs1_complete hw3 (tok_head_not_ws d3 _ hd3)]
  dsimp only
  obtain ⟨⟨tv, rv⟩, hv⟩ :=
    Option.isSome_iff_exists.mp (parseFloatTok_isSome_last hd3 he3 hn3)
  rw [hv]
  rfl

/-- The lazy group loop succeeds exactly when some split of the rest lets
the pattern tail match. -/
theorem rowMatchAux_isSome :
    ∀ (rest acc : List Char),
      (rowMatchAux acc rest).isSome = true ↔
        ∃ a b, rest = a ++ b ∧ (tailMatch b).isSome = true := by
  intro rest
  induction rest with
  | nil =>
    intro acc
    constructor
    · intro h
      simp [rowMatchAux, tailMatch, skipWs1] at h
    · rintro ⟨a, b, hab, hb⟩
      obtain ⟨rfl, rfl⟩ := List.append_eq_nil.mp hab.symm
      simp [tailMatch, skipWs1] at hb
  | cons c r ih =>
    intro acc
    rw [rowMatchAux]
    cases e : tailMatch (c :: r) with
    | some v =>
      obtain ⟨v1, v2, v3⟩ := v
      dsimp only
      constructor
      · intro _
        exact ⟨[], c :: r, by simp, by rw [e]; rfl⟩
      · intro _
        rfl
    | none =>
      dsimp only
      rw [ih (c :: acc)]
      constructor
      · rintro ⟨a, b, hab, hb⟩
        exact ⟨c :: a, b, by rw [hab, List.cons_append], hb⟩
      · rintro ⟨a, b, hab, hb⟩
        cases a with
        | nil =>
          rw [List.nil_append] at hab
          rw [← hab, e] at hb
          simp at hb
        | cons a0 a2 =>
          injection hab with h1 h2
          exact ⟨a2, b, h2, hb⟩

/-- One group-start attempt succeeds exactly when the input splits into a
nonempty label and a matching tail. -/
theorem groupSearch_isSome (cs : List Char) :
    (groupSearch cs).isSome = true ↔
      ∃ a b, cs = a ++ b ∧ a ≠ [] ∧ (tailMatch b).isSome = true := by
  cases cs with
  | nil =>
    constructor
    · intro h
      simp [groupSearch] at h
    · rintro ⟨a, b, hab, hne, _⟩
      exact absurd (List.append_eq_nil.mp hab.symm).1 hne
  | cons c r =>
    show (rowMatchAux [c] r).isSome = true ↔ _
    rw [rowMatchAux_isSome r [c]]
    constructor
    · rintro ⟨a, b, hab, hb⟩
      exact ⟨c :: a, b, by rw [hab, List.cons_append], by simp, hb⟩
    · rintro ⟨a, b, hab, hne, hb⟩
      cases a with
      | nil => exact absurd rfl hne
      | cons a0 a2 =>
        injection hab with h1 h2
        exact ⟨a2, b, h2, hb⟩

/-- The leading `\s*` backtracking succeeds exactly when some start
position at most `k` admits a group match. -/
theorem rowMatchFrom_isSome (cs : List Char) :
    ∀ k, (rowMatchFrom cs k).isSome = true ↔
      ∃ j, j ≤ k ∧ (groupSearch (cs.drop j)).isSome = true := by
  intro k
  induction k with
  | zero =>
    constructor
    · intro h
      exact ⟨0, Nat.le_refl 0, by simpa using h⟩
    · rintro ⟨j, hj, hp⟩
      have : j = 0 := Nat.le_zero.mp hj
      subst this
      simpa using hp
  | succ k ih =>
    rw [rowMatchFrom]
    cases e : groupSearch (cs.drop (k + 1)) with
    | some v =>
      dsimp only
      constructor
      · intro _
        exact ⟨k + 1, Nat.le_refl _, by rw [e]; rfl⟩
      · intro _
        rfl
    | none =>
      dsimp only
      rw [ih]
      constructor
      · rintro ⟨j, hj, hp⟩
        exact ⟨j, Nat.le_succ_of_le hj, hp⟩
      · rintro ⟨j, hj, hp⟩
        by_cases hjk : j = k + 1
        · subst hjk
          rw [e] at hp
          simp at hp
        · exact ⟨j, by omega, hp⟩

/-- The full `row_pattern` search succeeds exactly on lines admitting the
declarative label + three numbers decomposition. -/
theorem rowMatch_isSome_iff (cs : List Char) :
    (rowMatch cs).isSome = true ↔ rowAccepts cs := by
  unfold rowMatch
  rw [rowMatchFrom_isSome]
  constructor
  · rintro ⟨j, _, hp⟩
    obtain ⟨a, b, hab, hne, hb⟩ := (groupSearch_isSome _).mp hp
    refine ⟨cs.take j ++ a, b, ?_, ?_, tailMatch_sound hb⟩
    · rw [List.append_assoc, ← hab, List.take_append_drop]
    · simp [hne]
  · rintro ⟨lab, b, hab, hne, hspec⟩
    exact ⟨0, Nat.zero_le _, (groupSearch_isSome _).mpr
      ⟨lab, b, by simpa using hab, hne, tailMatch_complete hspec⟩⟩

/-- C6 (amended): a non-blank line is accepted by the data-row step iff it
consists of a non-greedy leading label followed by AT LEAST three
whitespace-separated decimal numbers — the pattern has no end anchor, so
trailing text after the third number (further numbers included) is
ignored. -/
theorem c6_row_acceptance (cs : List Char) :
    (rowMatch cs).isSome = true ↔ rowAccepts cs :=
  rowMatch_isSome_iff cs

/-- C6 counterexample: a label followed by FOUR decimal numbers IS
accepted as a data row (capturing the first three; the fourth is
ignored), contradicting the claimed exactly-three acceptance. -/
theorem c6_counterexample :
    rowMatch "A 0.1 0.2 0.3 0.4".data =
        some ("A".data, "0.1".data, "0.2".data, "0.3".data) ∧
      parse_table_block "A 0.1 0.2 0.3 0.4".data =
        { base := [⟨"A".data, 1/10, 2/10, 3/10⟩], tuned := [] } := by
  constructor
  · decide
  · simp [parse_table_block, parseLineStep, pyStrip, rowMatch, rowMatchFrom, groupSearch,
      rowMatchAux, tailMatch, skipWs1, parseFloatTok, floatOfTok, pyLower, containsSub,
      isPyWs, digitsToNat, List.splitOn, List.splitOnP, List.splitOnP.go]

/-- Formatting a rational that is exactly `n/10000` with `n < 10000`
yields `0.` followed by the four padded digits of `n`. -/
theorem fmtFloat_small (n : ℕ) (hn : n < 10000) (q : ℚ) (hq : q * 10000 = n) :
    fmtFloat q = '0' :: '.' :: pad4 n := by
  have hrhe : rhe (q * 10000) = (n : ℤ) := by
    rw [hq]
    unfold rhe
    rw [Int.floor_natCast]
    rw [if_pos (by push_cast; norm_num)]
  have hfq : formatQ q = '0' :: '.' :: pad4 n := by
    unfold formatQ
    rw [hrhe, if_neg (not_lt.mpr (Int.natCast_nonneg n)), Int.toNat_natCast,
      Nat.div_eq_of_lt hn, Nat.mod_eq_of_lt hn]
    rfl
  exact fmtFloat_eq_of_head hfq (by decide)

/-- The rendered data line of a row with the representative numeric
fields, written with its leading pipe and space exposed. -/
theorem renderDataRow_c1 (M : List Char) :
    renderDataRow ⟨M, 9123/10000, 8890/10000, 9001/10000⟩ =
      '|' :: ' ' :: (M ++ " | 0.9001 | 0.9123 | 0.8890 |".data) := by
  unfold renderDataRow
  rw [fmtFloat_small 9001 (by norm_num) (9001/10000 : ℚ) (by norm_num),
    fmtFloat_small 9123 (by norm_num) (9123/10000 : ℚ) (by norm_num),
    fmtFloat_small 8890 (by norm_num) (8890/10000 : ℚ) (by norm_num)]
  rw [show ("| ".data : List Char) = ['|', ' '] from by decide]
  simp only [List.append_assoc, List.cons_append, List.nil_append]
  congr 1

/-- Every suffix of the concrete pipe-separated cell text fails the
pattern tail: each number is followed by ` |`, never by a further
whitespace-separated number. -/
theorem c1_tails_concrete :
    ∀ b ∈ (" | 0.9001 | 0.9123 | 0.8890 |".data).tails, tailMatch b = none := by
  decide

/-- No suffix of `label ++ cells` matches the pattern tail when the label
has no whitespace, digits or dots. -/
theorem c1_no_tail_MT (M : List Char)
    (hall : ∀ c ∈ M, isPyWs c = false ∧ c.isDigit = false ∧ c ≠ '.') :
    ∀ b, b <:+ (M ++ " | 0.9001 | 0.9123 | 0.8890 |".data) → tailMatch b = none := by
  induction M with
  | nil =>
    intro b hb
    exact c1_tails_concrete b ((List.mem_tails _ _).mpr (by simpa using hb))
  | cons c M2 ih =>
    intro b hb
    rw [List.cons_append] at hb
    rcases List.suffix_cons_iff.mp hb with h1 | h1
    · subst h1
      have hc := hall c (List.mem_cons_self c M2)
      have hsw : skipWs1 (c :: (M2 ++ " | 0.9001 | 0.9123 | 0.8890 |".data)) = none := by
        simp only [skipWs1]
        rw [if_neg (by simp [hc.1])]
      unfold tailMatch
      rw [hsw]
    · exact ih (fun d hd => hall d (List.mem_cons_of_mem c hd)) b h1

/-- The heart of the round-trip failure: the rendered markdown data line
of a plain-label row never matches `row_pattern` — the pipes between the
cells are not whitespace, so no three whitespace-separated numbers
exist in the line. -/
theorem rowMatch_rendered_none (M : List Char) (h : plainLabel M) :
    rowMatch (renderDataRow ⟨M, 9123/10000, 8890/10000, 9001/10000⟩) = none := by
  obtain ⟨hne, hall⟩ := h
  rw [renderDataRow_c1 M, ← Option.not_isSome_iff_eq_none]
  intro hs
  unfold rowMatch at hs
  rw [rowMatchFrom_isSome] at hs
  obtain ⟨j, _, hp⟩ := hs
  rw [groupSearch_isSome] at hp
  obtain ⟨a, b, hab, hane, hb⟩ := hp
  have hbL : b <:+ ('|' :: ' ' :: (M ++ " | 0.9001 | 0.9123 | 0.8890 |".data)) := by
    have h1 : b <:+ ('|' :: ' ' :: (M ++ " | 0.9001 | 0.9123 | 0.8890 |".data)).drop j :=
      hab ▸ List.suffix_append a b
    exact h1.trans (List.drop_suffix j _)
  rcases List.suffix_cons_iff.mp hbL with h1 | h1
  · have hlen := congrArg List.length hab
    rw [h1] at hlen
    simp only [List.length_drop, List.length_append, List.length_cons] at hlen
    have hap : 0 < a.length := List.length_pos.mpr hane
    omega
  · rcases List.suffix_cons_iff.mp h1 with h2 | h2
    · subst h2
      cases M with
      | nil => exact absurd rfl hne
      | cons m M2 =>
        have hm := hall m (List.mem_cons_self m M2)
        have hsw : skipWs1 (' ' :: (m :: M2 ++ " | 0.9001 | 0.9123 | 0.8890 |".data)) =
            some (m :: (M2 ++ " | 0.9001 | 0.9123 | 0.8890 |".data)) := by
          simp only [skipWs1, List.cons_append]
          rw [if_pos (by decide), List.dropWhile_cons_of_neg (by simp [hm.1])]
        have hpf : parseFloatTok (m :: (M2 ++ " | 0.9001 | 0.9123 | 0.8890 |".data)) =
            none := by
          unfold parseFloatTok
          rw [show (m :: (M2 ++ " | 0.9001 | 0.9123 | 0.8890 |".data)).dropWhile
              Char.isDigit = m :: (M2 ++ " | 0.9001 | 0.9123 | 0.8890 |".data) from
            List.dropWhile_cons_of_neg (by simp [hm.2.1])]
          split
          · next r heq => exact absurd (List.head_eq_of_cons_eq heq) hm.2.2
          · rfl
        unfold tailMatch at hb
        rw [hsw] at hb
        dsimp only at hb
        rw [hpf] at hb
        simp at hb
    · rw [c1_no_tail_MT M hall b h2] at hb
      simp at hb

/-- C1 (amended): for every ParsedRow whose Model is a nonempty label
free of whitespace, digits and dots, rendering the row as a markdown data
line and re-parsing it with the data-row pattern yields NO row at all
(shown with the representative numeric fields 0.9123/0.8890/0.9001): the
pipe delimiters prevent any match, so the round-trip reproduces
nothing. -/
theorem c1_rendered_row_reparse (M : List Char) (h : plainLabel M) :
    rowMatch (renderDataRow ⟨M, 9123/10000, 8890/10000, 9001/10000⟩) = none :=
  rowMatch_rendered_none M h

/-- C1 witness: the label `SVM`. -/
theorem c1_witness :
    plainLabel "SVM".data ∧
      rowMatch (renderDataRow ⟨"SVM".data, 9123/10000, 8890/10000, 9001/10000⟩) = none :=
  ⟨by constructor <;> decide, c1_rendered_row_reparse "SVM".data (by constructor <;> decide)⟩

/-- C1 counterexample: rendering the row (SVM, 0.9123, 0.8890, 0.9001)
and re-parsing the line yields no row, not the claimed exactly-one. -/
theorem c1_counterexample :
    rowMatch (renderDataRow ⟨"SVM".data, 9123/10000, 8890/10000, 9001/10000⟩) = none :=
  rowMatch_rendered_none "SVM".data (by constructor <;> decide)

/-- Counting invariant of the caption loop: the image-table counter grows
by the number of stored tables plus the number of empty OCR outcomes. -/
theorem capLoop_count (ocr : Nat → Rect4 → List Char) (pd : PageData) (pageNum : Nat) :
    ∀ (caps : List Caption) (proc : List (List Char)) (st : ProcState),
      (capLoop ocr pd pageNum caps proc st).imageCount + st.tables.length =
        st.imageCount + (capLoop ocr pd pageNum caps proc st).tables.length +
          emptyCapCount ocr pd pageNum caps proc := by
  intro caps
  induction caps with
  | nil =>
    intro proc st
    simp [capLoop, emptyCapCount]
  | cons c rest ih =>
    intro proc st
    rw [capLoop, emptyCapCount]
    by_cases hmem : c.text ∈ proc
    · rw [if_pos hmem, if_pos hmem]
      exact ih proc st
    · rw [if_neg hmem, if_neg hmem]
      cases hcov : is_covered_by_pdfplumber pd.tables c.bbox with
      | some t =>
        dsimp only
        have := ih (c.text :: proc) { st with tableCount := st.tableCount + 1 }
        simpa using this
      | none =>
        dsimp only
        by_cases htxt : extract_table_image_ocr ocr pd pageNum c.bbox
            (rest.head?.map fun c2 => c2.bbox.y0) = []
        · rw [if_neg (by simpa using htxt), if_pos htxt]
          have := ih (c.text :: proc)
            { st with
                tableCount := st.tableCount + 1
                imageCount := st.imageCount + 1
                tables := st.tables }
          dsimp only at this ⊢
          omega
        · rw [if_pos htxt, if_neg htxt]
          have := ih (c.text :: proc)
            { st with
                tableCount := st.tableCount + 1
                imageCount := st.imageCount + 1
                tables := st.tables ++ [⟨pageNum + 1, c.text,
                  extract_table_image_ocr ocr pd pageNum c.bbox
                    (rest.head?.map fun c2 => c2.bbox.y0), "image_ocr".data⟩] }
          dsimp only at this ⊢
          rw [List.length_append, List.length_singleton] at this
          omega

/-- The caption loop increments the total counter at least as much as
the image counter. -/
theorem capLoop_total (ocr : Nat → Rect4 → List Char) (pd : PageData) (pageNum : Nat) :
    ∀ (caps : List Caption) (proc : List (List Char)) (st : ProcState),
      (capLoop ocr pd pageNum caps proc st).imageCount + st.tableCount ≤
        (capLoop ocr pd pageNum caps proc st).tableCount + st.imageCount := by
  intro caps
  induction caps with
  | nil =>
    intro proc st
    rw [capLoop]
    omega
  | cons c rest ih =>
    intro proc st
    rw [capLoop]
    by_cases hmem : c.text ∈ proc
    · rw [if_pos hmem]
      exact ih proc st
    · rw [if_neg hmem]
      cases hcov : is_covered_by_pdfplumber pd.tables c.bbox with
      | some t =>
        dsimp only
        have := ih (c.text :: proc) { st with tableCount := st.tableCount + 1 }
        dsimp only at this ⊢
        omega
      | none =>
        dsimp only
        have := ih (c.text :: proc)
          { st with
              tableCount := st.tableCount + 1
              imageCount := st.imageCount + 1
              tables := if extract_table_image_ocr ocr pd pageNum c.bbox
                  (rest.head?.map fun c2 => c2.bbox.y0) ≠ [] then
                  st.tables ++ [⟨pageNum + 1, c.text,
                    extract_table_image_ocr ocr pd pageNum c.bbox
                      (rest.head?.map fun c2 => c2.bbox.y0), "image_ocr".data⟩]
                else st.tables }
        dsimp only at this ⊢
        omega

/-- The caption loop stores only nonempty OCR text, always tagged
`image_ocr`. -/
theorem capLoop_store (ocr : Nat → Rect4 → List Char) (pd : PageData) (pageNum : Nat) :
    ∀ (caps : List Caption) (proc : List (List Char)) (st : ProcState),
      (∀ t ∈ st.tables, t.content ≠ [] ∧ t.ttype = "image_ocr".data) →
      ∀ t ∈ (capLoop ocr pd pageNum caps proc st).tables,
        t.content ≠ [] ∧ t.ttype = "image_ocr".data := by
  intro caps
  induction caps with
  | nil =>
    intro proc st h
    simpa [capLoop] using h
  | cons c rest ih =>
    intro proc st h
    rw [capLoop]
    by_cases hmem : c.text ∈ proc
    · rw [if_pos hmem]
      exact ih proc st h
    · rw [if_neg hmem]
      cases hcov : is_covered_by_pdfplumber pd.tables c.bbox with
      | some t =>
        dsimp only
        exact ih (c.text :: proc) _ h
      | none =>
        dsimp only
        apply ih (c.text :: proc)
        intro t ht
        by_cases htxt : extract_table_image_ocr ocr pd pageNum c.bbox
            (rest.head?.map fun c2 => c2.bbox.y0) = []
        · rw [if_neg (by simpa using htxt)] at ht
          exact h t ht
        · rw [if_pos htxt] at ht
          rcases List.mem_append.mp ht with h1 | h1
          · exact h t h1
          · rw [List.mem_singleton] at h1
            subst h1
            exact ⟨htxt, rfl⟩

/-- The per-page body only adds content lines beyond the caption loop:
its counting behavior is the caption loop's. -/
theorem processPage_count (ocr : Nat → Rect4 → List Char) (pageNum : Nat)
    (pd : PageData) (st : ProcState) :
    (processPage ocr pageNum pd st).imageCount + st.tables.length =
      st.imageCount + (processPage ocr pageNum pd st).tables.length +
        emptyCapCount ocr pd pageNum pd.captions [] ∧
      (processPage ocr pageNum pd st).imageCount + st.tableCount ≤
        (processPage ocr pageNum pd st).tableCount + st.imageCount ∧
      (processPage ocr pageNum pd st).tables = (capLoop ocr pd pageNum pd.captions [] st).tables := by
  unfold processPage
  refine ⟨?_, ?_, ?_⟩
  · simpa using capLoop_count ocr pd pageNum pd.captions [] st
  · simpa using capLoop_total ocr pd pageNum pd.captions [] st
  · rfl

/-- Counting invariant of the page loop. -/
theorem pageLoop_count (ocr : Nat → Rect4 → List Char) :
    ∀ (pages : List PageData) (pageNum : Nat) (st : ProcState),
      (pageLoop ocr pageNum pages st).imageCount + st.tables.length =
        st.imageCount + (pageLoop ocr pageNum pages st).tables.length +
          emptyOcrCountAux ocr pageNum pages := by
  intro pages
  induction pages with
  | nil =>
    intro pageNum st
    simp [pageLoop, emptyOcrCountAux]
  | cons pd rest ih =>
    intro pageNum st
    rw [pageLoop, emptyOcrCountAux]
    have h1 := (processPage_count ocr pageNum pd st).1
    have h2 := ih (pageNum + 1) (processPage ocr pageNum pd st)
    omega

/-- The page loop keeps the image counter at most the total counter. -/
theorem pageLoop_total (ocr : Nat → Rect4 → List Char) :
    ∀ (pages : List PageData) (pageNum : Nat) (st : ProcState),
      (pageLoop ocr pageNum pages st).imageCount + st.tableCount ≤
        (pageLoop ocr pageNum pages st).tableCount + st.imageCount := by
  intro pages
  induction pages with
  | nil =>
    intro pageNum st
    rw [pageLoop]
    omega
  | cons pd rest ih =>
    intro pageNum st
    rw [pageLoop]
    have h1 := (processPage_count ocr pageNum pd st).2.1
    have h2 := ih (pageNum + 1) (processPage ocr pageNum pd st)
    omega

/-- The page loop stores only nonempty OCR-tagged tables. -/
theorem pageLoop_store (ocr : Nat → Rect4 → List Char) :
    ∀ (pages : List PageData) (pageNum : Nat) (st : ProcState),
      (∀ t ∈ st.tables, t.content ≠ [] ∧ t.ttype = "image_ocr".data) →
      ∀ t ∈ (pageLoop ocr pageNum pages st).tables,
        t.content ≠ [] ∧ t.ttype = "image_ocr".data := by
  intro pages
  induction pages with
  | nil =>
    intro pageNum st h
    simpa [pageLoop] using h
  | cons pd rest ih =>
    intro pageNum st h
    rw [pageLoop]
    apply ih (pageNum + 1)
    rw [(processPage_count ocr pageNum pd st).2.2]
    exact capLoop_store ocr pd pageNum pd.captions [] st h

/-- C10: after `process`, the image-table counter equals the number of
stored OCR tables plus the number of empty OCR outcomes; it strictly
exceeds the stored count exactly when some OCR attempt (an aborted region
included) returned empty text; it never exceeds the total counter; and
every stored table is a nonempty `image_ocr` entry. -/
theorem c10_counter_invariant (env : Env) :
    (process env).2.2.2 = (process env).2.1.length + emptyOcrCount env ∧
      ((process env).2.1.length < (process env).2.2.2 ↔ 0 < emptyOcrCount env) ∧
      (process env).2.2.2 ≤ (process env).2.2.1 ∧
      ∀ t ∈ (process env).2.1, t.content ≠ [] ∧ t.ttype = "image_ocr".data := by
  have h1 := pageLoop_count env.ocr env.pages 0 ⟨[], [], 0, 0⟩
  have h2 := pageLoop_total env.ocr env.pages 0 ⟨[], [], 0, 0⟩
  have h3 := pageLoop_store env.ocr env.pages 0 ⟨[], [], 0, 0⟩ (by simp)
  simp only [List.length_nil, Nat.add_zero, Nat.zero_add] at h1 h2
  unfold process emptyOcrCount
  dsimp only
  exact ⟨h1, ⟨fun h => by omega, fun h => by omega⟩, h2, h3⟩

end PdfPipeline
